import Mathlib

/-!
Verification of the atjson rich-text document model.

Part 1: shallow embedding of the URL-embed recognizer
(`identify` and its service predicates / normalizers).

The JS source works over an `IUrl` record whose `searchParams` may be a
plain string-keyed object or a `URLSearchParams` instance; we model the
plain-object form as an association list, so a missing key is JS
`undefined` (modelled as `none`).  `new URL(...)` values are modelled as a
`JSURL` record and `.href` as plain concatenation of its parts;
percent-encoding performed by the JS `URL` class is not modelled, as no
verified property depends on it.
-/

namespace AtJson.Url

structure IUrl where
  protocol : String
  host : String
  pathname : String
  hash : String
  searchParams : List (String × String)
  deriving Repr

/-- JS `string.startsWith(pattern)`, modelled on character lists
(first argument is the pattern). -/
def startsWithL : List Char → List Char → Bool
  | [], _ => true
  | _ :: _, [] => false
  | c :: p, d :: s => c = d && startsWithL p s

/-- JS `getSearchParam(searchParams, name)` for the object-typed variant:
`searchParams[name]`, i.e. first binding of `name`, `undefined` (`none`)
when absent. -/
def getSearchParam (sp : List (String × String)) (name : String) : Option String :=
  match sp with
  | [] => none
  | (k, v) :: rest => if k = name then some v else getSearchParam rest name

/-- JS template-literal interpolation of a possibly-`undefined` value:
`undefined` prints as the string `"undefined"`. -/
def jsStr : Option String → String
  | some s => s
  | none => "undefined"

/-- JS `array.split("/")` on a pathname, keeping empty pieces, modelled on
the character list of the string. -/
def splitSlashAux (cur : List Char) : List Char → List String
  | [] => [String.mk cur.reverse]
  | c :: rest =>
    if c = '/' then String.mk cur.reverse :: splitSlashAux [] rest
    else splitSlashAux (c :: cur) rest

def splitSlash (s : String) : List String :=
  splitSlashAux [] s.data

/-- JS helper `without(array, value)`: keeps the parts `!== value`. -/
def without (array : List String) (value : String) : List String :=
  array.filter (fun part => part ≠ value)

/-- The model of a constructed JS `URL` object. -/
structure JSURL where
  protocol : String
  host : String
  pathname : String
  search : List (String × String)
  hash : String
  deriving Repr

def renderQuery : List (String × String) → String
  | [] => ""
  | (k, v) :: rest => "?" ++ k ++ "=" ++ v ++ renderQueryRest rest
where renderQueryRest : List (String × String) → String
  | [] => ""
  | (k, v) :: rest => "&" ++ k ++ "=" ++ v ++ renderQueryRest rest

/-- JS `url.href`: protocol, host, pathname, serialized query, hash. -/
def JSURL.href (u : JSURL) : String :=
  u.protocol ++ "://" ++ u.host ++ u.pathname ++ renderQuery u.search ++ u.hash

/-- `searchParams.set(k, v)`: overwrite in place if present, else append. -/
def setParam (sp : List (String × String)) (k v : String) : List (String × String) :=
  match sp with
  | [] => [(k, v)]
  | (k', v') :: rest => if k' = k then (k, v) :: rest else (k', v') :: setParam rest k v

/-- JS `string.replace(":", "")`: removes the first `:` only. -/
def removeFirstColon : List Char → List Char
  | [] => []
  | c :: rest => if c = ':' then rest else c :: removeFirstColon rest

/-- JS `toURL(url)`: rebuild the URL from its parts, copying only truthy
search params (the `if (value)` check drops empty strings). -/
def toURL (url : IUrl) : String :=
  JSURL.href
    { protocol := String.mk (removeFirstColon url.protocol.data)
      host := url.host
      pathname := url.pathname
      search := url.searchParams.filter (fun kv => kv.2 ≠ "")
      hash := url.hash }

def isYouTubeEmbedURL (url : IUrl) : Bool :=
  url.host = "youtu.be" ||
    ((url.host = "www.youtube-nocookie.com" || url.host = "www.youtube.com") &&
      startsWithL "/embed/".data url.pathname.data)

/-- JS `isYouTubeWatchURL`.  In the object-typed `searchParams` model a
missing `v` key yields `undefined`, and in JS `undefined !== null` is
`true`, so the final conjunct of the source never rejects here; it is kept
as the (identically true) comparison against `null`. -/
def isYouTubeWatchURL (url : IUrl) : Bool :=
  (url.host = "www.youtube.com" || url.host = "m.youtube.com" ||
      url.host = "youtube.com") &&
    startsWithL "/watch".data url.pathname.data &&
    (match getSearchParam url.searchParams "v" with
     | some _ => true
     | none => true)

def isYouTubeURL (url : IUrl) : Bool :=
  isYouTubeEmbedURL url || isYouTubeWatchURL url

def normalizeYouTubeURL (url : IUrl) : String :=
  let base : JSURL :=
    if url.host = "www.youtube-nocookie.com" then
      { protocol := "https", host := "www.youtube-nocookie.com", pathname := "/",
        search := [], hash := "" }
    else
      { protocol := "https", host := "www.youtube.com", pathname := "/",
        search := [], hash := "" }
  let withT : JSURL :=
    match getSearchParam url.searchParams "t" with
    | some timestamp => { base with search := setParam base.search "t" timestamp }
    | none => base
  if isYouTubeEmbedURL url then
    let parts := without (splitSlash url.pathname) ""
    let id := parts.getLast?
    let withPath := { withT with pathname := "/embed/" ++ jsStr id }
    let withControls :=
      match getSearchParam url.searchParams "controls" with
      | some controls => { withPath with search := setParam withPath.search "controls" controls }
      | none => withPath
    withControls.href
  else
    { withT with
      pathname := "/embed/" ++ jsStr (getSearchParam url.searchParams "v") }.href

/-- Host test of `isDailymotionURL`: the JS regex
`^[^.]*\.dailymotion\.com` matches iff a dot-free prefix is followed by the
literal `.dailymotion.com`. -/
def dmHostMatch (host : String) : Bool :=
  startsWithL ".dailymotion.com".data (host.data.dropWhile (fun c => c ≠ '.'))

/-- Path test of `isDailymotionURL`'s second alternative: the JS regex
`^\/[^\\]*\/video\//` matches iff the pathname starts with `/` and the
substring `/video/` occurs later with no backslash before it. -/
def dmPathScan : List Char → Bool
  | [] => false
  | c :: rest =>
    startsWithL "/video/".data (c :: rest) ||
      (c ≠ '\\' && dmPathScan rest)

def dmPathRegex (pathname : String) : Bool :=
  match pathname.data with
  | '/' :: rest => dmPathScan rest
  | _ => false

def isDailymotionURL (url : IUrl) : Bool :=
  dmHostMatch url.host &&
    (startsWithL "/video".data url.pathname.data || dmPathRegex url.pathname)

/-- The JS loop `while (part !== "video") part = parts.shift();` consumes
segments up to and including the first `"video"`.  When no segment equals
`"video"`, `shift()` keeps returning `undefined`, which is never `===`
`"video"`, so the loop never terminates; that divergence is modelled as
`none`. -/
def shiftToVideo : List String → Option (List String)
  | [] => none
  | p :: rest => if p = "video" then some rest else shiftToVideo rest

/-- JS `normalizeDailymotionURL`; `none` models the source's
non-terminating loop when the pathname has no `"video"` segment. -/
def normalizeDailymotionURL (url : IUrl) : Option String :=
  let search := url.searchParams.filter (fun kv => kv.2 ≠ "")
  let parts := without (splitSlash url.pathname) ""
  match shiftToVideo parts with
  | none => none
  | some rest =>
    some (JSURL.href
      { protocol := "https", host := "www.dailymotion.com",
        pathname := "/embed/video/" ++ jsStr rest.head?,
        search := search, hash := "" })

def isVimeoURL (url : IUrl) : Bool :=
  url.host = "vimeo.com" || url.host = "player.vimeo.com" || url.host = "www.vimeo.com"

def isVimeoEmbedURL (url : IUrl) : Bool :=
  url.host = "player.vimeo.com"

def normalizeVimeoURL (url : IUrl) : String :=
  if isVimeoEmbedURL url then
    toURL { url with protocol := "https" }
  else
    let parts := without (splitSlash url.pathname) ""
    let id := parts.head?
    JSURL.href
      { protocol := "https", host := "player.vimeo.com",
        pathname := "/video/" ++ jsStr id, search := [], hash := "" }

def isBrightcoveURL (url : IUrl) : Bool :=
  url.host = "players.brightcove.net" || url.host = "bcove.video" || url.host = "bcove.me"

/-- Result of running a JS function that may not return: either it loops
forever (`diverges`) or it returns a value. -/
inductive JSOutcome where
  | diverges
  | value (v : Option String)
  deriving Repr, DecidableEq

/-- The exported `identify(url)` dispatcher. -/
def identify (url : IUrl) : JSOutcome :=
  if isYouTubeURL url then .value (some (normalizeYouTubeURL url))
  else if isVimeoURL url then .value (some (normalizeVimeoURL url))
  else if isDailymotionURL url then
    match normalizeDailymotionURL url with
    | some s => .value (some s)
    | none => .diverges
  else if isBrightcoveURL url then .value (some (toURL url))
  else .value none

/-! Helper lemmas about the recognizer. -/

theorem startsWithL_iff_take (p : List Char) :
    ∀ l : List Char, startsWithL p l = true ↔ l.take p.length = p := by
  induction p with
  | nil => intro l; simp [startsWithL]
  | cons c p ih =>
    intro l
    cases l with
    | nil => simp [startsWithL]
    | cons d s => simp [startsWithL, ih s, eq_comm (a := c) (b := d)]

theorem mem_video_splitSlashAux (l : List Char)
    (h : startsWithL "/video/".data l = true) :
    ∀ cur, "video" ∈ splitSlashAux cur l := by
  intro cur
  rw [startsWithL_iff_take] at h
  obtain ⟨rest, rfl⟩ : ∃ rest, l = "/video/".data ++ rest :=
    ⟨l.drop "/video/".data.length, by
      conv_lhs => rw [← List.take_append_drop "/video/".data.length l, h]⟩
  have hd : "/video/".data = ['/', 'v', 'i', 'd', 'e', 'o', '/'] := rfl
  rw [hd]
  simp [splitSlashAux]

theorem dmPathScan_video (l : List Char) (h : dmPathScan l = true) :
    ∀ cur, "video" ∈ splitSlashAux cur l := by
  induction l with
  | nil => simp [dmPathScan] at h
  | cons c rest ih =>
    intro cur
    rw [dmPathScan, Bool.or_eq_true, Bool.and_eq_true] at h
    rcases h with h | ⟨-, h⟩
    · exact mem_video_splitSlashAux _ h cur
    · rw [splitSlashAux]
      split
      · exact List.mem_cons_of_mem _ (ih h [])
      · exact ih h (c :: cur)

theorem shiftToVideo_of_mem {l : List String} (h : "video" ∈ l) :
    ∃ rest, shiftToVideo l = some rest := by
  induction l with
  | nil => cases h
  | cons p rest ih =>
    rw [shiftToVideo]
    by_cases hp : p = "video"
    · exact ⟨rest, by simp [hp]⟩
    · rcases List.mem_cons.mp h with h' | h'
      · exact absurd h'.symm hp
      · simpa [hp] using ih h'

/-- C10 (amended): `normalizeDailymotionURL` terminates whenever the
pathname has a path segment equal to `"video"`, returning the
`https://www.dailymotion.com` URL whose pathname is
`/embed/video/<id>` with `<id>` the segment following `"video"`; that
precondition is guaranteed by the second alternative of
`isDailymotionURL` (the `/^\/[^\\]*\/video\//` pattern), though not by
its `startsWith("/video")` alternative. -/
theorem normalizeDailymotionURL_terminates (u : IUrl) :
    (dmPathRegex u.pathname = true → "video" ∈ without (splitSlash u.pathname) "") ∧
    ("video" ∈ without (splitSlash u.pathname) "" →
      ∃ rest, shiftToVideo (without (splitSlash u.pathname) "") = some rest ∧
        normalizeDailymotionURL u = some (JSURL.href
          { protocol := "https", host := "www.dailymotion.com",
            pathname := "/embed/video/" ++ jsStr rest.head?,
            search := u.searchParams.filter (fun kv => kv.2 ≠ ""),
            hash := "" })) := by
  constructor
  · intro h
    rw [dmPathRegex] at h
    split at h
    · rename_i rest heq
      have hmem : "video" ∈ splitSlash u.pathname := by
        rw [splitSlash, heq, splitSlashAux]
        simpa using dmPathScan_video rest h []
      exact List.mem_filter.mpr ⟨hmem, by decide⟩
    · simp at h
  · intro h
    obtain ⟨rest, hrest⟩ := shiftToVideo_of_mem h
    exact ⟨rest, hrest, by rw [normalizeDailymotionURL]; rw [hrest]⟩

/-- Witness for C10's theorem at the concrete URL
`https://www.dailymotion.com/video/x7tgad0`. -/
def dmGoodUrl : IUrl :=
  { protocol := "https", host := "www.dailymotion.com", pathname := "/video/x7tgad0",
    hash := "", searchParams := [] }

theorem normalizeDailymotionURL_terminates_witness :
    ∃ rest, shiftToVideo (without (splitSlash dmGoodUrl.pathname) "") = some rest ∧
      normalizeDailymotionURL dmGoodUrl = some (JSURL.href
        { protocol := "https", host := "www.dailymotion.com",
          pathname := "/embed/video/" ++ jsStr rest.head?,
          search := dmGoodUrl.searchParams.filter (fun kv => kv.2 ≠ ""),
          hash := "" }) :=
  (normalizeDailymotionURL_terminates dmGoodUrl).2 (by decide)

/-- Counterexample input for C9/C10: accepted by `isDailymotionURL` via
its `startsWith("/video")` alternative, yet its path has no `"video"`
segment, so the normalization loop never terminates. -/
def dmBadUrl : IUrl :=
  { protocol := "https", host := "www.dailymotion.com", pathname := "/videos",
    hash := "", searchParams := [] }

/-- C10 counterexample: `isDailymotionURL` accepts `/videos`, but
`normalizeDailymotionURL` diverges on it (the `"video"`-segment
precondition is not guaranteed by acceptance). -/
theorem normalizeDailymotionURL_accept_diverges :
    isDailymotionURL dmBadUrl = true ∧ normalizeDailymotionURL dmBadUrl = none := by
  decide

/-- C9 (amended): `identify` returns `null` iff the URL matches none of
the recognized services; whenever YouTube or Vimeo matches, or
Dailymotion matches with a `"video"` path segment, or Brightcove matches
and Dailymotion does not, `identify` returns a non-null normalized embed
URL string.  (A Dailymotion-accepted URL without a `"video"` path segment
makes `identify` diverge instead.) -/
theorem identify_none_iff (u : IUrl) :
    (identify u = JSOutcome.value none ↔
      (isYouTubeURL u = false ∧ isVimeoURL u = false ∧
        isDailymotionURL u = false ∧ isBrightcoveURL u = false)) ∧
    ((isYouTubeURL u = true ∨ isVimeoURL u = true ∨
        (isDailymotionURL u = true ∧ "video" ∈ without (splitSlash u.pathname) "") ∨
        (isBrightcoveURL u = true ∧ isDailymotionURL u = false)) →
      ∃ s, identify u = JSOutcome.value (some s)) := by
  constructor
  · rw [identify]
    split
    · rename_i hyt; simp [hyt]
    · split
      · rename_i hv; simp_all
      · split
        · rename_i hdm
          split <;> simp_all
        · split
          · rename_i hbc; simp_all
          · simp_all
  · intro h
    rw [identify]
    split
    · exact ⟨_, rfl⟩
    · split
      · exact ⟨_, rfl⟩
      · split
        · rename_i hyt hv hdm
          rcases h with h | h | ⟨-, h⟩ | ⟨-, h⟩
          · exact absurd h hyt
          · exact absurd h hv
          · obtain ⟨rest, hrest, hnorm⟩ :=
              (normalizeDailymotionURL_terminates u).2 h
            rw [hnorm]
            exact ⟨_, rfl⟩
          · simp [h] at hdm
        · split
          · exact ⟨_, rfl⟩
          · rename_i hyt hv hdm hbc
            rcases h with h | h | ⟨h, -⟩ | ⟨h, -⟩ <;> simp_all

/-- Witness for C9's theorem: a YouTube watch URL is identified with a
non-null embed URL. -/
def ytWatchUrl : IUrl :=
  { protocol := "https", host := "www.youtube.com", pathname := "/watch",
    hash := "", searchParams := [("v", "abc")] }

theorem identify_none_iff_witness :
    ∃ s, identify ytWatchUrl = JSOutcome.value (some s) :=
  (identify_none_iff ytWatchUrl).2 (Or.inl (by decide))

/-- C9 counterexample: `dmBadUrl` matches a recognized service
(`isDailymotionURL`), but `identify` diverges on it rather than
returning a normalized embed URL string (and rather than `null`). -/
theorem identify_service_diverges :
    isDailymotionURL dmBadUrl = true ∧ identify dmBadUrl = JSOutcome.diverges := by
  decide

end AtJson.Url

/-!
Part 2: the Document data model.

Modelled from the spec: the Document store and HIR builder of this
repository are not among the provided source files (only their tests and
callers are), so the data model below follows the specification's §3.

A document is a content string (sequence of Unicode scalar values,
modelled as `List Char`) plus a collection of annotations.  An annotation
carries a `type` string, `start`/`stop` offsets (the spec's `end`; `end`
is reserved in Lean) and `attributes`, a string-keyed mapping whose
values may be scalars or nested sub-documents with the same structure.
Scalar attribute values are represented by strings, and the spec's
ordered-sequence values are omitted: no verified property concerns them.
Annotation `id`s are opaque, excluded from structural equality by §3, and
no claim depends on them, so the model omits them.
-/

namespace AtJson.Core

mutual
/-- Modelled from the spec: an attribute value is a scalar or a nested
sub-document (content plus annotations) satisfying the same structure. -/
inductive AttrVal : Type where
  | str (s : String)
  | subdoc (content : List Char) (anns : List Ann)
/-- Modelled from the spec: an annotation with type, offsets and
attributes. -/
inductive Ann : Type where
  | mk (tpe : String) (start stop : Nat) (attrs : List (String × AttrVal))
end

def Ann.tpe : Ann → String
  | .mk t _ _ _ => t

def Ann.start : Ann → Nat
  | .mk _ s _ _ => s

def Ann.stop : Ann → Nat
  | .mk _ _ e _ => e

def Ann.attrs : Ann → List (String × AttrVal)
  | .mk _ _ _ x => x

/-- Modelled from the spec: a Document owns content and a flat,
possibly-overlapping annotation collection. -/
structure Doc where
  content : List Char
  anns : List Ann

mutual
/-- Structural, recursive equality on attribute values: nested
sub-documents are compared by content and, recursively, annotations. -/
def attrValBEq : AttrVal → AttrVal → Bool
  | .str a, .str b => a = b
  | .subdoc c₁ l₁, .subdoc c₂ l₂ => c₁ = c₂ && annListBEq l₁ l₂
  | _, _ => false
termination_by structural a => a
/-- Modelled from the spec: `Annotation.equals` — two annotations are
equal iff type, start, end and attributes (recursively through nested
sub-documents) are equal. -/
def annBEq : Ann → Ann → Bool
  | .mk t₁ s₁ e₁ x₁, .mk t₂ s₂ e₂ x₂ =>
    t₁ = t₂ && s₁ = s₂ && e₁ = e₂ && attrsBEq x₁ x₂
termination_by structural a => a
def attrsBEq : List (String × AttrVal) → List (String × AttrVal) → Bool
  | [], [] => true
  | (k₁, v₁) :: r₁, (k₂, v₂) :: r₂ => k₁ = k₂ && attrValBEq v₁ v₂ && attrsBEq r₁ r₂
  | _, _ => false
termination_by structural x => x
def annListBEq : List Ann → List Ann → Bool
  | [], [] => true
  | a :: r, b :: s => annBEq a b && annListBEq r s
  | _, _ => false
termination_by structural x => x
end

mutual
/-- Range validity, recursively through nested sub-documents. -/
def attrValValid : AttrVal → Bool
  | .str _ => true
  | .subdoc c l => annListValid c.length l
termination_by structural a => a
/-- `0 ≤ start ≤ end ≤ len(content)` plus recursive validity of attribute
sub-documents. -/
def annValid (len : Nat) : Ann → Bool
  | .mk _ s e x => decide (s ≤ e) && decide (e ≤ len) && attrsValid x
termination_by structural a => a
def attrsValid : List (String × AttrVal) → Bool
  | [] => true
  | (_, v) :: r => attrValValid v && attrsValid r
termination_by structural x => x
def annListValid (len : Nat) : List Ann → Bool
  | [] => true
  | a :: r => annValid len a && annListValid len r
termination_by structural x => x
end

/-- The Document range invariant of spec §3/§8. -/
def docValid (d : Doc) : Bool :=
  annListValid d.content.length d.anns

/-! `annBEq` and its helpers decide structural equality. -/

mutual
theorem attrValBEq_iff : ∀ a b : AttrVal, attrValBEq a b = true ↔ a = b
  | .str a, .str b => by simp [attrValBEq]
  | .str _, .subdoc _ _ => by simp [attrValBEq]
  | .subdoc _ _, .str _ => by simp [attrValBEq]
  | .subdoc c₁ l₁, .subdoc c₂ l₂ => by
    simp [attrValBEq, annListBEq_iff l₁ l₂]
theorem annBEq_iff : ∀ a b : Ann, annBEq a b = true ↔ a = b
  | .mk t₁ s₁ e₁ x₁, .mk t₂ s₂ e₂ x₂ => by
    simp [annBEq, attrsBEq_iff x₁ x₂, and_assoc]
theorem attrsBEq_iff : ∀ x y : List (String × AttrVal), attrsBEq x y = true ↔ x = y
  | [], [] => by simp [attrsBEq]
  | [], _ :: _ => by simp [attrsBEq]
  | _ :: _, [] => by simp [attrsBEq]
  | (k₁, v₁) :: r₁, (k₂, v₂) :: r₂ => by
    simp [attrsBEq, attrValBEq_iff v₁ v₂, attrsBEq_iff r₁ r₂, and_assoc]
theorem annListBEq_iff : ∀ x y : List Ann, annListBEq x y = true ↔ x = y
  | [], [] => by simp [annListBEq]
  | [], _ :: _ => by simp [annListBEq]
  | _ :: _, [] => by simp [annListBEq]
  | a :: r, b :: s => by simp [annListBEq, annBEq_iff a b, annListBEq_iff r s]
end

instance : DecidableEq Ann := fun a b => decidable_of_iff _ (annBEq_iff a b)

instance : DecidableEq AttrVal := fun a b => decidable_of_iff _ (attrValBEq_iff a b)

/-- The recursive-equality fixture of the repository's `annotation-test`:
the `-test-image` annotation whose `-test-caption` attribute is a nested
sub-document with an italic annotation at offsets `[s, 10)`. -/
def imageAnn (s : Nat) : Ann :=
  .mk "-test-image" 0 1
    [("-test-url", .str "http://www.example.com/test.jpg"),
     ("-test-caption",
       .subdoc "An example caption".data [.mk "-test-italic" s 10 []])]

/-- C8: annotation equality is structural and recursive: `equals` holds
iff type, start, end and attributes are equal, nested sub-documents being
compared recursively by the same structural rule; in particular the
repository's own fixture pair — identical except for one offset inside
the nested caption sub-document — is unequal. -/
theorem annBEq_structural_recursive :
    (∀ a b : Ann, annBEq a b = true ↔
      (a.tpe = b.tpe ∧ a.start = b.start ∧ a.stop = b.stop ∧ a.attrs = b.attrs)) ∧
    annBEq (imageAnn 3) (imageAnn 3) = true ∧
    annBEq (imageAnn 3) (imageAnn 4) = false := by
  refine ⟨fun a b => ?_, by decide, by decide⟩
  cases a with
  | mk t₁ s₁ e₁ x₁ =>
    cases b with
    | mk t₂ s₂ e₂ x₂ =>
      rw [annBEq_iff]
      simp [Ann.tpe, Ann.start, Ann.stop, Ann.attrs]

/-!
The Document store (spec §4.1): construction with all-or-nothing
validation, and the text-mutation operations with the per-type boundary
policy.  All modelled from the spec.
-/

/-- Rank buckets of spec §3, ordered Object > Block > Inline >
ParseToken. -/
inductive RankBucket : Type where
  | object
  | block
  | inline
  | parseToken
  deriving DecidableEq, Repr

/-- Modelled from the spec (§9): static per-type metadata — rank bucket,
declared priority, and the `(expand-start, expand-end)` boundary policy
flags. -/
structure TypeInfo where
  rank : RankBucket
  priority : Int
  expandStart : Bool
  expandEnd : Bool

/-- The type registry: a static mapping from type string to metadata. -/
abbrev Registry := String → TypeInfo

inductive EditErr : Type where
  | rangeErr
  deriving DecidableEq, Repr

inductive ConstructErr : Type where
  | validationErr (offending : List Ann)

/-- Modelled from the spec (§4.1 insertText): boundary adjustment of one
annotation for an insertion of length `L` at position `p`.  A zero-width
(point) annotation never expands; an insertion at its point is excluded,
the boundary shifting past so that the range is untouched. -/
def insertAdjust (reg : Registry) (p L : Nat) (a : Ann) : Ann :=
  if a.start = a.stop then
    (if p ≤ a.start then .mk a.tpe (a.start + L) (a.stop + L) a.attrs else a)
  else if p < a.start then .mk a.tpe (a.start + L) (a.stop + L) a.attrs
  else if a.stop < p then a
  else if a.start < p ∧ p < a.stop then .mk a.tpe a.start (a.stop + L) a.attrs
  else if p = a.start then
    (if (reg a.tpe).expandStart then .mk a.tpe a.start (a.stop + L) a.attrs
     else .mk a.tpe (a.start + L) (a.stop + L) a.attrs)
  else
    (if (reg a.tpe).expandEnd then .mk a.tpe a.start (a.stop + L) a.attrs else a)

/-- Modelled from the spec: `insertText(position, text)`: RangeError when
the position is outside `[0, len(content)]`, otherwise splice the text in
and adjust every annotation. -/
def insertText (reg : Registry) (d : Doc) (p : Nat) (t : List Char) : Except EditErr Doc :=
  if p ≤ d.content.length then
    .ok ⟨d.content.take p ++ t ++ d.content.drop p,
         d.anns.map (insertAdjust reg p t.length)⟩
  else .error .rangeErr

/-- Position adjustment for a deletion of `[a, b)`: positions before the
interval stay, positions after shift left, positions inside clamp to
`a`. -/
def clampPos (a b x : Nat) : Nat :=
  if x ≤ a then x else if b ≤ x then x - (b - a) else a

/-- Modelled from the spec: an annotation genuinely inside the deleted
interval — fully contained and actually overlapping it — is removed
(this removes point annotations strictly inside, and keeps point
annotations sitting on the interval's boundaries). -/
def removedBy (a b : Nat) (ann : Ann) : Bool :=
  decide (a ≤ ann.start) && decide (ann.stop ≤ b) &&
    decide (ann.start < b) && decide (a < ann.stop)

def deleteAdjust (a b : Nat) (ann : Ann) : Ann :=
  .mk ann.tpe (clampPos a b ann.start) (clampPos a b ann.stop) ann.attrs

/-- Modelled from the spec: `deleteText(range)`: RangeError when out of
bounds; annotations genuinely inside the interval are removed, the rest
are clipped to the surviving content. -/
def deleteText (d : Doc) (a b : Nat) : Except EditErr Doc :=
  if a ≤ b ∧ b ≤ d.content.length then
    .ok ⟨d.content.take a ++ d.content.drop b,
         (d.anns.filter (fun ann => !removedBy a b ann)).map (deleteAdjust a b)⟩
  else .error .rangeErr

/-- Modelled from the spec: `replaceText(range, text)` is a logically
atomic delete-then-insert. -/
def replaceText (reg : Registry) (d : Doc) (a b : Nat) (t : List Char) :
    Except EditErr Doc :=
  match deleteText d a b with
  | .ok d' => insertText reg d' a t
  | .error e => .error e

def sliceKeep (a b : Nat) (ann : Ann) : Bool :=
  decide (ann.start < b) && decide (a < ann.stop)

def sliceAdjust (a b : Nat) (ann : Ann) : Ann :=
  .mk ann.tpe (max ann.start a - a) (min ann.stop b - a) ann.attrs

/-- Modelled from the spec: `slice(range)`: a new Document over the
sub-content; annotations entirely outside are dropped, partially
overlapping ones truncated to local coordinates. -/
def sliceDoc (d : Doc) (a b : Nat) : Except EditErr Doc :=
  if a ≤ b ∧ b ≤ d.content.length then
    .ok ⟨(d.content.drop a).take (b - a),
         (d.anns.filter (sliceKeep a b)).map (sliceAdjust a b)⟩
  else .error .rangeErr

mutual
/-- Offending annotations inside an attribute value. -/
def collectBadVal : AttrVal → List Ann
  | .str _ => []
  | .subdoc c l => collectBadList c.length l
termination_by structural a => a
/-- Offending annotations of one annotation: itself when its range is
malformed for content length `len`, plus nested offenders. -/
def collectBadAnn (len : Nat) : Ann → List Ann
  | .mk t s e x =>
    (if s ≤ e ∧ e ≤ len then [] else [.mk t s e x]) ++ collectBadAttrs x
termination_by structural a => a
def collectBadAttrs : List (String × AttrVal) → List Ann
  | [] => []
  | (_, v) :: r => collectBadVal v ++ collectBadAttrs r
termination_by structural x => x
def collectBadList (len : Nat) : List Ann → List Ann
  | [] => []
  | a :: r => collectBadAnn len a ++ collectBadList len r
termination_by structural x => x
end

/-- Modelled from the spec: `Construct(content, annotations)` validates
every annotation's range (recursively, nested sub-documents against their
own content) and fails with a ValidationError enumerating every offending
annotation; all-or-nothing. -/
def construct (c : List Char) (anns : List Ann) : Except ConstructErr Doc :=
  match collectBadList c.length anns with
  | [] => .ok ⟨c, anns⟩
  | a :: r => .error (.validationErr (a :: r))

/-- An annotation (at any nesting depth) of the supplied collection whose
range is malformed relative to its own document's content length. -/
inductive BadIn : Nat → List Ann → Ann → Prop where
  | here {len : Nat} {anns : List Ann} (a : Ann) :
      a ∈ anns → ¬(a.start ≤ a.stop ∧ a.stop ≤ len) → BadIn len anns a
  | nested {len : Nat} {anns : List Ann} (a : Ann) (k : String)
      (c' : List Char) (anns' : List Ann) (b : Ann) :
      a ∈ anns → (k, AttrVal.subdoc c' anns') ∈ a.attrs →
      BadIn c'.length anns' b → BadIn len anns b

theorem BadIn.cons {len : Nat} {r : List Ann} {x b : Ann}
    (h : BadIn len r b) : BadIn len (x :: r) b := by
  cases h with
  | here _ ha hbad => exact .here b (List.mem_cons_of_mem x ha) hbad
  | nested a k c' l' _ ha hm hb =>
    exact .nested a k c' l' b (List.mem_cons_of_mem x ha) hm hb

mutual
theorem collectBadVal_mem : ∀ (v : AttrVal) (b : Ann),
    b ∈ collectBadVal v ↔
      ∃ c' l', v = AttrVal.subdoc c' l' ∧ BadIn c'.length l' b
  | .str s, b => by simp [collectBadVal]
  | .subdoc c l, b => by
    rw [collectBadVal, collectBadList_mem c.length l b]
    constructor
    · intro h; exact ⟨c, l, rfl, h⟩
    · rintro ⟨c', l', heq, h⟩
      cases heq
      exact h
termination_by structural v => v
theorem collectBadAnn_mem : ∀ (len : Nat) (a b : Ann),
    b ∈ collectBadAnn len a ↔
      ((¬(a.start ≤ a.stop ∧ a.stop ≤ len)) ∧ b = a) ∨
        ∃ k c' l', (k, AttrVal.subdoc c' l') ∈ a.attrs ∧ BadIn c'.length l' b
  | len, .mk t s e x, b => by
    rw [collectBadAnn]
    simp only [List.mem_append, collectBadAttrs_mem x b, Ann.start, Ann.stop, Ann.attrs]
    split_ifs with h
    · simp [h]
    · simp [h]
termination_by structural len a => a
theorem collectBadAttrs_mem : ∀ (x : List (String × AttrVal)) (b : Ann),
    b ∈ collectBadAttrs x ↔
      ∃ k c' l', (k, AttrVal.subdoc c' l') ∈ x ∧ BadIn c'.length l' b
  | [], b => by simp [collectBadAttrs]
  | (k, v) :: r, b => by
    rw [collectBadAttrs]
    simp only [List.mem_append, collectBadVal_mem v b, collectBadAttrs_mem r b,
      List.mem_cons, Prod.mk.injEq]
    constructor
    · rintro (⟨c', l', rfl, hb⟩ | ⟨k', c', l', hm, hb⟩)
      · exact ⟨k, c', l', Or.inl ⟨rfl, rfl⟩, hb⟩
      · exact ⟨k', c', l', Or.inr hm, hb⟩
    · rintro ⟨k', c', l', (⟨hk, hv⟩ | hm), hb⟩
      · exact Or.inl ⟨c', l', hv.symm, hb⟩
      · exact Or.inr ⟨k', c', l', hm, hb⟩
termination_by structural x => x
theorem collectBadList_mem : ∀ (len : Nat) (l : List Ann) (b : Ann),
    b ∈ collectBadList len l ↔ BadIn len l b
  | len, [], b => by
    rw [collectBadList]
    constructor
    · intro h; exact absurd h (List.not_mem_nil b)
    · intro h
      cases h with
      | here _ ha _ => exact absurd ha (List.not_mem_nil b)
      | nested a k c' l' _ ha _ _ => exact absurd ha (List.not_mem_nil a)
  | len, a :: r, b => by
    rw [collectBadList]
    simp only [List.mem_append, collectBadAnn_mem len a b, collectBadList_mem len r b]
    constructor
    · rintro ((⟨hbad, rfl⟩ | ⟨k, c', l', hm, hb⟩) | h)
      · exact .here b (List.mem_cons_self b r) hbad
      · exact .nested a k c' l' b (List.mem_cons_self a r) hm hb
      · exact h.cons
    · intro h
      cases h with
      | here _ ha' hbad =>
        rcases List.mem_cons.mp ha' with rfl | ha'
        · exact Or.inl (Or.inl ⟨hbad, rfl⟩)
        · exact Or.inr (.here b ha' hbad)
      | nested a' k c' l' _ ha' hm hb =>
        rcases List.mem_cons.mp ha' with rfl | ha'
        · exact Or.inl (Or.inr ⟨k, c', l', hm, hb⟩)
        · exact Or.inr (.nested a' k c' l' b ha' hm hb)
termination_by structural len l => l
end

mutual
theorem collectBadVal_nil : ∀ v : AttrVal, collectBadVal v = [] ↔ attrValValid v = true
  | .str s => by simp [collectBadVal, attrValValid]
  | .subdoc c l => by
    simp [collectBadVal, attrValValid, collectBadList_nil c.length l]
termination_by structural v => v
theorem collectBadAnn_nil : ∀ (len : Nat) (a : Ann),
    collectBadAnn len a = [] ↔ annValid len a = true
  | len, .mk t s e x => by
    rw [collectBadAnn, annValid]
    simp only [List.append_eq_nil, collectBadAttrs_nil x]
    split_ifs with h
    · simp [h.1, h.2]
    · rw [not_and_or] at h
      rcases h with h | h <;> simp [h]
termination_by structural len a => a
theorem collectBadAttrs_nil : ∀ x : List (String × AttrVal),
    collectBadAttrs x = [] ↔ attrsValid x = true
  | [] => by simp [collectBadAttrs, attrsValid]
  | (k, v) :: r => by
    simp [collectBadAttrs, attrsValid, collectBadVal_nil v, collectBadAttrs_nil r]
termination_by structural x => x
theorem collectBadList_nil : ∀ (len : Nat) (l : List Ann),
    collectBadList len l = [] ↔ annListValid len l = true
  | len, [] => by simp [collectBadList, annListValid]
  | len, a :: r => by
    simp [collectBadList, annListValid, collectBadAnn_nil len a,
      collectBadList_nil len r]
termination_by structural len l => l
end

/-- A successful construction yields a valid Document. -/
theorem construct_ok_valid {c : List Char} {anns : List Ann} {d : Doc}
    (h : construct c anns = .ok d) : docValid d = true := by
  rw [construct] at h
  split at h
  · rename_i hnil
    cases h
    exact (collectBadList_nil _ _).mp hnil
  · cases h

/-- C7: construction is all-or-nothing: it fails with a ValidationError
iff some annotation (recursively, against its own document's content
length) violates `start ≤ end` or is out of bounds; the error enumerates
exactly the offending annotations; on success the Document contains the
content and all supplied annotations. -/
theorem construct_all_or_nothing (c : List Char) (anns : List Ann) :
    (construct c anns = .ok ⟨c, anns⟩ ↔ ¬∃ b, BadIn c.length anns b) ∧
    (∀ bad, construct c anns = .error (.validationErr bad) →
      ∀ b, (b ∈ bad ↔ BadIn c.length anns b)) ∧
    ((∃ e, construct c anns = .error e) ↔ ∃ b, BadIn c.length anns b) := by
  refine ⟨?_, ?_, ?_⟩
  · rw [construct]
    split
    · rename_i hnil
      constructor
      · rintro - ⟨b, hb⟩
        have hmem := (collectBadList_mem c.length anns b).mpr hb
        rw [hnil] at hmem
        exact absurd hmem (List.not_mem_nil b)
      · intro
        rfl
    · rename_i a r heq
      constructor
      · intro h; cases h
      · intro h
        exact absurd ⟨a, (collectBadList_mem c.length anns a).mp (by simp [heq])⟩ h
  · intro bad h b
    rw [construct] at h
    split at h
    · cases h
    · rename_i a r heq
      cases h
      rw [← heq]
      exact collectBadList_mem c.length anns b
  · rw [construct]
    split
    · rename_i hnil
      constructor
      · rintro ⟨e, he⟩; cases he
      · rintro ⟨b, hb⟩
        have hmem := (collectBadList_mem c.length anns b).mpr hb
        rw [hnil] at hmem
        exact absurd hmem (List.not_mem_nil b)
    · rename_i a r heq
      constructor
      · intro
        exact ⟨a, (collectBadList_mem c.length anns a).mp (by simp [heq])⟩
      · intro
        exact ⟨.validationErr (a :: r), rfl⟩

/-- Witness for C7 at a concrete malformed input: content `"a"` with an
annotation `[2, 1)` both inverted and out of bounds. -/
theorem construct_all_or_nothing_witness :
    ∃ b, BadIn (List.length ['a']) [Ann.mk "x" 2 1 []] b :=
  (construct_all_or_nothing ['a'] [Ann.mk "x" 2 1 []]).2.2.mp
    ⟨.validationErr [Ann.mk "x" 2 1 []], rfl⟩

/-! Validity helpers and preservation under each mutation. -/

theorem annListValid_iff_forall {len : Nat} {l : List Ann} :
    annListValid len l = true ↔ ∀ a ∈ l, annValid len a = true := by
  induction l with
  | nil => simp [annListValid]
  | cons x r ih => simp [annListValid, ih]

theorem annValid_start_le_stop {len : Nat} {a : Ann}
    (h : annValid len a = true) : a.start ≤ a.stop := by
  obtain ⟨t, s, e, x⟩ := a
  simp only [annValid, Bool.and_eq_true, decide_eq_true_eq] at h
  simpa [Ann.start, Ann.stop] using h.1.1

theorem insertAdjust_valid (reg : Registry) (p L : Nat) {len : Nat} {a : Ann}
    (h : annValid len a = true) :
    annValid (len + L) (insertAdjust reg p L a) = true := by
  obtain ⟨t, s, e, x⟩ := a
  simp only [annValid, Bool.and_eq_true, decide_eq_true_eq] at h
  obtain ⟨⟨hse, hel⟩, hx⟩ := h
  rw [insertAdjust]
  simp only [Ann.start, Ann.stop, Ann.tpe, Ann.attrs]
  split_ifs <;> simp [annValid, hx] <;> omega

theorem deleteAdjust_valid (a b : Nat) {len : Nat} {ann : Ann}
    (hab : a ≤ b) (hbl : b ≤ len) (h : annValid len ann = true) :
    annValid (len - (b - a)) (deleteAdjust a b ann) = true := by
  obtain ⟨t, s, e, x⟩ := ann
  simp only [annValid, Bool.and_eq_true, decide_eq_true_eq] at h
  obtain ⟨⟨hse, hel⟩, hx⟩ := h
  simp only [deleteAdjust, clampPos, Ann.start, Ann.stop, Ann.tpe, Ann.attrs]
  split_ifs <;> simp [annValid, hx] <;> omega

theorem sliceAdjust_valid (a b : Nat) {len : Nat} {ann : Ann}
    (hab : a ≤ b) (hbl : b ≤ len) (hk : sliceKeep a b ann = true)
    (h : annValid len ann = true) :
    annValid (b - a) (sliceAdjust a b ann) = true := by
  obtain ⟨t, s, e, x⟩ := ann
  simp only [annValid, Bool.and_eq_true, decide_eq_true_eq] at h
  simp only [sliceKeep, Ann.start, Ann.stop, Bool.and_eq_true, decide_eq_true_eq] at hk
  obtain ⟨⟨hse, hel⟩, hx⟩ := h
  simp only [sliceAdjust, Ann.start, Ann.stop, Ann.tpe, Ann.attrs,
    annValid, Bool.and_eq_true, decide_eq_true_eq, max_def, min_def]
  refine ⟨⟨?_, ?_⟩, hx⟩ <;> split_ifs <;> omega

theorem insertText_valid {reg : Registry} {d : Doc} {p : Nat} {t : List Char} {d' : Doc}
    (hv : docValid d = true) (h : insertText reg d p t = .ok d') :
    docValid d' = true := by
  rw [insertText] at h
  split at h
  · rename_i hp
    cases h
    rw [docValid] at hv ⊢
    have hl : (d.content.take p ++ t ++ d.content.drop p).length =
        d.content.length + t.length := by simp; omega
    rw [hl, annListValid_iff_forall] at *
    intro a ha
    obtain ⟨b, hb, rfl⟩ := List.mem_map.mp ha
    exact insertAdjust_valid reg p t.length (hv b hb)
  · cases h

theorem deleteText_valid {d : Doc} {a b : Nat} {d' : Doc}
    (hv : docValid d = true) (h : deleteText d a b = .ok d') :
    docValid d' = true := by
  rw [deleteText] at h
  split at h
  · rename_i hb
    cases h
    rw [docValid] at hv ⊢
    have hl : (d.content.take a ++ d.content.drop b).length =
        d.content.length - (b - a) := by simp; omega
    rw [hl, annListValid_iff_forall] at *
    intro x hx
    obtain ⟨y, hy, rfl⟩ := List.mem_map.mp hx
    exact deleteAdjust_valid a b hb.1 hb.2 (hv y (List.mem_of_mem_filter hy))
  · cases h

theorem replaceText_valid {reg : Registry} {d : Doc} {a b : Nat} {t : List Char} {d' : Doc}
    (hv : docValid d = true) (h : replaceText reg d a b t = .ok d') :
    docValid d' = true := by
  rw [replaceText] at h
  split at h
  · rename_i m hm
    exact insertText_valid (deleteText_valid hv hm) h
  · cases h

theorem sliceDoc_valid {d : Doc} {a b : Nat} {d' : Doc}
    (hv : docValid d = true) (h : sliceDoc d a b = .ok d') :
    docValid d' = true := by
  rw [sliceDoc] at h
  split at h
  · rename_i hb
    cases h
    rw [docValid] at hv ⊢
    have hl : ((d.content.drop a).take (b - a)).length = b - a := by simp; omega
    rw [hl, annListValid_iff_forall] at *
    intro x hx
    obtain ⟨y, hy, rfl⟩ := List.mem_map.mp hx
    exact sliceAdjust_valid a b hb.1 hb.2 (List.mem_filter.mp hy).2
      (hv y (List.mem_of_mem_filter hy))
  · cases h

/-- Documents reachable from `d` by a sequence of successful edit
operations. -/
inductive Reach (reg : Registry) : Doc → Doc → Prop where
  | refl (d : Doc) : Reach reg d d
  | insert {d e : Doc} (p : Nat) (t : List Char) {e' : Doc} :
      Reach reg d e → insertText reg e p t = .ok e' → Reach reg d e'
  | delete {d e : Doc} (a b : Nat) {e' : Doc} :
      Reach reg d e → deleteText e a b = .ok e' → Reach reg d e'
  | replace {d e : Doc} (a b : Nat) (t : List Char) {e' : Doc} :
      Reach reg d e → replaceText reg e a b t = .ok e' → Reach reg d e'
  | slice {d e : Doc} (a b : Nat) {e' : Doc} :
      Reach reg d e → sliceDoc e a b = .ok e' → Reach reg d e'

/-- C3: every annotation of a constructed Document — and of every
Document reached from it by insertText/deleteText/replaceText/slice —
satisfies `0 ≤ start ≤ end ≤ len(content)`, recursively through nested
sub-documents. -/
theorem construct_reach_valid (reg : Registry) {c : List Char} {anns : List Ann}
    {d₀ d : Doc} (hc : construct c anns = .ok d₀) (hr : Reach reg d₀ d) :
    docValid d = true := by
  induction hr with
  | refl => exact construct_ok_valid hc
  | insert p t hre hok ih => exact insertText_valid ih hok
  | delete a b hre hok ih => exact deleteText_valid ih hok
  | replace a b t hre hok ih => exact replaceText_valid ih hok
  | slice a b hre hok ih => exact sliceDoc_valid ih hok

/-- A registry mapping every type to an inline, priority-0,
non-expanding entry; used for concrete witnesses. -/
def defaultReg : Registry := fun _ =>
  { rank := .inline, priority := 0, expandStart := false, expandEnd := false }

theorem construct_reach_valid_witness :
    docValid ⟨['a', 'x', 'b'], [Ann.mk "b" 0 1 []]⟩ = true :=
  @construct_reach_valid defaultReg ['a', 'b'] [Ann.mk "b" 0 1 []]
    ⟨['a', 'b'], [Ann.mk "b" 0 1 []]⟩ ⟨['a', 'x', 'b'], [Ann.mk "b" 0 1 []]⟩
    rfl (Reach.insert 1 ['x'] (Reach.refl _) rfl)

/-- C4: each mutation on a valid Document either succeeds with a fully
valid updated state or fails with a RangeError exactly on out-of-bounds
positions/intervals (returning no document at all, so the prior state is
untouched); replaceText is the atomic composition of deleteText and
insertText, fully applied or not at all. -/
theorem mutation_atomicity (reg : Registry) (d : Doc) (p a b : Nat) (t : List Char)
    (hv : docValid d = true) :
    ((∃ d', insertText reg d p t = .ok d') ↔ p ≤ d.content.length) ∧
    (∀ d', insertText reg d p t = .ok d' → docValid d' = true) ∧
    ((∃ d', deleteText d a b = .ok d') ↔ (a ≤ b ∧ b ≤ d.content.length)) ∧
    (∀ d', deleteText d a b = .ok d' → docValid d' = true) ∧
    ((∃ d', replaceText reg d a b t = .ok d') ↔ (a ≤ b ∧ b ≤ d.content.length)) ∧
    (∀ d', replaceText reg d a b t = .ok d' →
      docValid d' = true ∧
        ∃ m, deleteText d a b = .ok m ∧ insertText reg m a t = .ok d') := by
  refine ⟨?_, fun d' h => insertText_valid hv h, ?_,
    fun d' h => deleteText_valid hv h, ?_, fun d' h => ?_⟩
  · rw [insertText]
    split
    · rename_i hp
      exact ⟨fun _ => hp, fun _ => ⟨_, rfl⟩⟩
    · rename_i hp
      constructor
      · rintro ⟨d', hd'⟩; cases hd'
      · intro hple; exact absurd hple hp
  · rw [deleteText]
    split
    · rename_i hb
      exact ⟨fun _ => hb, fun _ => ⟨_, rfl⟩⟩
    · rename_i hb
      constructor
      · rintro ⟨d', hd'⟩; cases hd'
      · intro hhb; exact absurd hhb hb
  · constructor
    · rintro ⟨d', hd'⟩
      rw [replaceText] at hd'
      split at hd'
      · rename_i m hm
        rw [deleteText] at hm
        split at hm
        · rename_i hb; exact hb
        · cases hm
      · cases hd'
    · rintro ⟨hab, hbl⟩
      have hm : deleteText d a b = .ok ⟨d.content.take a ++ d.content.drop b,
          (d.anns.filter (fun ann => !removedBy a b ann)).map (deleteAdjust a b)⟩ := by
        rw [deleteText, if_pos ⟨hab, hbl⟩]
      have hins : insertText reg ⟨d.content.take a ++ d.content.drop b,
          (d.anns.filter (fun ann => !removedBy a b ann)).map (deleteAdjust a b)⟩ a t =
          .ok ⟨(d.content.take a ++ d.content.drop b).take a ++ t ++
                 (d.content.take a ++ d.content.drop b).drop a,
               ((d.anns.filter (fun ann => !removedBy a b ann)).map
                   (deleteAdjust a b)).map (insertAdjust reg a t.length)⟩ := by
        rw [insertText,
          if_pos (show a ≤ (d.content.take a ++ d.content.drop b).length by simp; omega)]
      exact ⟨_, by rw [replaceText, hm]; exact hins⟩
  · rw [replaceText] at h
    split at h
    · rename_i m hm
      exact ⟨insertText_valid (deleteText_valid hv hm) h, m, hm, h⟩
    · cases h

/-- Witness for C4 on a concrete valid document. -/
theorem mutation_atomicity_witness :
    ∃ d', replaceText defaultReg ⟨['a', 'b'], [Ann.mk "b" 0 2 []]⟩ 0 1 ['c'] = .ok d' :=
  (mutation_atomicity defaultReg ⟨['a', 'b'], [Ann.mk "b" 0 2 []]⟩ 0 0 1 ['c']
    (by decide)).2.2.2.2.1.mpr (by decide)

/-- C5: insertText fails with RangeError iff the position lies outside
`[0, len(content)]`; on success the text is spliced in and every
annotation is adjusted: both offsets shift when the position is strictly
before `start`, nothing changes when it is strictly after `end`, and
`end` alone grows when it is strictly inside `(start, end)`. -/
theorem insertText_rules (reg : Registry) (d : Doc) (p : Nat) (t : List Char)
    (hv : docValid d = true) :
    (insertText reg d p t = .error .rangeErr ↔ d.content.length < p) ∧
    (∀ d', insertText reg d p t = .ok d' →
      d'.content = d.content.take p ++ t ++ d.content.drop p ∧
      d'.anns = d.anns.map (insertAdjust reg p t.length) ∧
      ∀ ann ∈ d.anns,
        (p < ann.start →
          insertAdjust reg p t.length ann =
            .mk ann.tpe (ann.start + t.length) (ann.stop + t.length) ann.attrs) ∧
        (ann.stop < p → insertAdjust reg p t.length ann = ann) ∧
        (ann.start < p → p < ann.stop →
          insertAdjust reg p t.length ann =
            .mk ann.tpe ann.start (ann.stop + t.length) ann.attrs)) := by
  constructor
  · rw [insertText]
    split
    · rename_i hp
      constructor
      · intro h; cases h
      · intro h; omega
    · rename_i hp
      exact ⟨fun _ => by omega, fun _ => rfl⟩
  · intro d' h
    rw [insertText] at h
    split at h
    · cases h
      refine ⟨rfl, rfl, fun ann hmem => ?_⟩
      have hse : ann.start ≤ ann.stop :=
        annValid_start_le_stop
          (annListValid_iff_forall.mp (by rw [docValid] at hv; exact hv) ann hmem)
      obtain ⟨tp, s, e, x⟩ := ann
      simp only [Ann.start, Ann.stop] at hse
      rw [insertAdjust]
      simp only [Ann.start, Ann.stop, Ann.tpe, Ann.attrs]
      refine ⟨fun h1 => ?_, fun h1 => ?_, fun h1 h2 => ?_⟩ <;>
        (split_ifs <;> first | rfl | (exfalso; omega))
    · cases h

/-- Witness for C5: inserting one character strictly inside `[0, 2)`
grows the end alone. -/
theorem insertText_rules_witness :
    insertAdjust defaultReg 1 1 (Ann.mk "b" 0 2 []) = Ann.mk "b" 0 3 [] :=
  (((insertText_rules defaultReg ⟨['a', 'b'], [Ann.mk "b" 0 2 []]⟩ 1 ['x']
      (by decide)).2
      ⟨['a', 'x', 'b'], [Ann.mk "b" 0 3 []]⟩ rfl).2.2 (Ann.mk "b" 0 2 [])
      (by decide)).2.2 (by decide) (by decide)

/-- Inserting then deleting leaves each annotation untouched: the
adjusted annotation is never removed by the inverse deletion and clamps
back to its original offsets. -/
theorem insert_delete_ann (reg : Registry) (p L : Nat) (ann : Ann)
    (hse : ann.start ≤ ann.stop) :
    removedBy p (p + L) (insertAdjust reg p L ann) = false ∧
    deleteAdjust p (p + L) (insertAdjust reg p L ann) = ann := by
  obtain ⟨tp, s, e, x⟩ := ann
  simp only [Ann.start, Ann.stop] at hse
  rw [insertAdjust]
  simp only [Ann.start, Ann.stop, Ann.tpe, Ann.attrs]
  split_ifs <;>
    refine ⟨by
        rw [Bool.eq_false_iff]
        intro hcon
        simp only [removedBy, Ann.start, Ann.stop, Bool.and_eq_true,
          decide_eq_true_eq] at hcon
        omega,
      by
        simp only [deleteAdjust, clampPos, Ann.start, Ann.stop, Ann.tpe,
          Ann.attrs, Ann.mk.injEq, true_and, and_true]
        constructor <;> (split_ifs <;> omega)⟩

/-- C6: for a valid document and an in-bounds position,
`insertText(p, t)` followed by `deleteText([p, p + len(t)))` restores the
original document exactly. -/
theorem insert_delete_inverse (reg : Registry) (d : Doc) (p : Nat) (t : List Char)
    (hv : docValid d = true) (hp : p ≤ d.content.length) :
    ∃ m, insertText reg d p t = .ok m ∧ deleteText m p (p + t.length) = .ok d := by
  obtain ⟨c, anns⟩ := d
  simp only [docValid] at hv
  refine ⟨_, by rw [insertText, if_pos hp], ?_⟩
  rw [deleteText]
  rw [if_pos (show p ≤ p + t.length ∧
      p + t.length ≤ ((c.take p ++ t ++ c.drop p)).length by simp at hp ⊢; omega)]
  rw [Except.ok.injEq, Doc.mk.injEq]
  constructor
  · have hA : (c.take p).length = p := by simp at hp ⊢; omega
    rw [List.append_assoc, List.take_append_eq_append_take,
      List.drop_append_eq_append_drop, hA]
    rw [Nat.sub_self, List.take_zero, List.take_take,
      List.drop_eq_nil_of_le (by omega : (c.take p).length ≤ p + t.length),
      min_self, List.append_nil, List.nil_append, Nat.add_sub_cancel_left,
      List.drop_append_eq_append_drop, List.drop_length, Nat.sub_self,
      List.drop_zero, List.nil_append]
    exact List.take_append_drop p c
  · have hkeep : ∀ x ∈ anns.map (insertAdjust reg p t.length),
        (fun ann => !removedBy p (p + t.length) ann) x = true := by
      intro x hx
      obtain ⟨y, hy, rfl⟩ := List.mem_map.mp hx
      have hse := annValid_start_le_stop (annListValid_iff_forall.mp hv y hy)
      simp [(insert_delete_ann reg p t.length y hse).1]
    rw [List.filter_eq_self.mpr hkeep, List.map_map]
    have hid : ∀ y ∈ anns,
        (deleteAdjust p (p + t.length) ∘ insertAdjust reg p t.length) y = y := by
      intro y hy
      have hse := annValid_start_le_stop (annListValid_iff_forall.mp hv y hy)
      exact (insert_delete_ann reg p t.length y hse).2
    rw [List.map_congr_left hid]
    simp

/-- Witness for C6 at a concrete document. -/
theorem insert_delete_inverse_witness :
    ∃ m, insertText defaultReg ⟨['a', 'b'], [Ann.mk "b" 0 2 []]⟩ 1 ['x', 'y'] = .ok m ∧
      deleteText m 1 (1 + List.length ['x', 'y']) = .ok ⟨['a', 'b'], [Ann.mk "b" 0 2 []]⟩ :=
  insert_delete_inverse defaultReg ⟨['a', 'b'], [Ann.mk "b" 0 2 []]⟩ 1 ['x', 'y']
    (by decide) (by decide)

/-!
The HIR builder (spec §4.3), modelled from the spec: discard ParseToken
annotations, sort canonically (§4.2), then sweep the cut points left to
right with a stack of open annotations, closing-and-reopening to split
genuine overlaps, joining adjacent identical siblings at attachment, and
emitting zero-width annotations as leaf elements.
-/

/-- HIR output nodes: text leaves and element nodes; elements also carry
the range they cover. -/
inductive HIRNode : Type where
  | text (s : List Char)
  | element (tpe : String) (attrs : List (String × AttrVal))
      (start stop : Nat) (children : List HIRNode)

def rankIdx : RankBucket → Nat
  | .object => 0
  | .block => 1
  | .inline => 2
  | .parseToken => 3

/-- Canonical sort key of §4.2: start ascending, rank bucket ascending,
end descending (encoded by negation), then declared per-type priority;
stable insertion order is the final tie-break, realised by the stability
of insertion sort. -/
def annKey (reg : Registry) (a : Ann) : Nat × Nat × Int × Int :=
  (a.start, rankIdx (reg a.tpe).rank, -(a.stop : Int), (reg a.tpe).priority)

def keyLE : Nat × Nat × Int × Int → Nat × Nat × Int × Int → Bool
  | (a₁, b₁, c₁, d₁), (a₂, b₂, c₂, d₂) =>
    if a₁ ≠ a₂ then decide (a₁ < a₂)
    else if b₁ ≠ b₂ then decide (b₁ < b₂)
    else if c₁ ≠ c₂ then decide (c₁ < c₂)
    else decide (d₁ ≤ d₂)

def annLE (reg : Registry) (a b : Ann) : Bool :=
  keyLE (annKey reg a) (annKey reg b)

/-- §4.3 step 1: ParseToken annotations are discarded. -/
def isRendered (reg : Registry) (a : Ann) : Bool :=
  decide ((reg a.tpe).rank ≠ RankBucket.parseToken)

/-- Stable insertion sort. -/
def insertSorted {α : Type} (le : α → α → Bool) (x : α) : List α → List α
  | [] => [x]
  | y :: ys => if le x y then x :: y :: ys else y :: insertSorted le x ys

def isort {α : Type} (le : α → α → Bool) : List α → List α
  | [] => []
  | x :: xs => insertSorted le x (isort le xs)

def natLE (a b : Nat) : Bool := decide (a ≤ b)

def dedupSorted : List Nat → List Nat
  | [] => []
  | [x] => [x]
  | x :: y :: r => if x = y then dedupSorted (y :: r) else x :: dedupSorted (y :: r)

/-- An open annotation on the sweep stack, with its accumulated children
(most recent first). -/
structure OpenEntry where
  tpe : String
  attrs : List (String × AttrVal)
  start : Nat
  stop : Nat
  kids : List HIRNode

/-- §4.3 step 5 (adjacent-sibling join): when the previous sibling is an
element of identical type and identical attributes whose range touches
the new element's, merge the two before attachment. -/
def attachNode (n : HIRNode) (kids : List HIRNode) : List HIRNode :=
  match n, kids with
  | .element t a s e cs, .element t' a' s' e' cs' :: rest =>
    if t = t' ∧ attrsBEq a a' = true ∧ e' = s then
      .element t a s' e (cs' ++ cs) :: rest
    else .element t a s e cs :: .element t' a' s' e' cs' :: rest
  | _, _ => n :: kids

def attachToHead (n : HIRNode) (stack : List OpenEntry) : List OpenEntry :=
  match stack with
  | [] => []
  | e :: rest => { e with kids := attachNode n e.kids } :: rest

def closeNode (e : OpenEntry) (p : Nat) : HIRNode :=
  .element e.tpe e.attrs e.start p e.kids.reverse

/-- How many stack entries, counted from the innermost, close at cut
point `p`: up to and including the outermost non-root entry whose end
equals `p`.  Entries above it whose end is beyond `p` are the genuine
overlaps of §4.3 step 4 and must be split. -/
def closeDepth (p : Nat) : List OpenEntry → Nat
  | [] => 0
  | [_] => 0
  | e :: rest =>
    if closeDepth p rest ≠ 0 then closeDepth p rest + 1
    else if e.stop = p then 1 else 0

/-- Close the top `k` stack entries at cut point `p`.  An entry whose end
is exactly `p` is completed; an entry whose end lies beyond `p` is split:
its first fragment is completed at `p` and a second fragment carrying the
full type and attributes is reopened at `p`. -/
def closeTop (p : Nat) : Nat → List OpenEntry → List OpenEntry
  | 0, st => st
  | _ + 1, [] => []
  | _ + 1, [r] => [r]
  | k + 1, e :: f :: rest =>
    let below := closeTop p k ({ f with kids := attachNode (closeNode e p) f.kids } :: rest)
    if e.stop = p then below
    else { e with start := p, kids := [] } :: below

def closeAt (p : Nat) (st : List OpenEntry) : List OpenEntry :=
  closeTop p (closeDepth p st) st

/-- Open every pending annotation starting at `p` (the list is sorted, so
they are consecutive at its front), in canonical order so that the first
becomes the outermost; zero-width annotations become childless leaf
elements (§4.3 step 6). -/
def openAt (p : Nat) : List Ann → List OpenEntry → List Ann × List OpenEntry
  | [], st => ([], st)
  | a :: rest, st =>
    if a.start = p then
      (if a.stop = p then
        openAt p rest (attachToHead (.element a.tpe a.attrs p p []) st)
      else
        openAt p rest
          ({ tpe := a.tpe, attrs := a.attrs, start := p, stop := a.stop, kids := [] } :: st))
    else (a :: rest, st)

/-- §4.3 step 3: sweep the cut points left to right, attaching the text
between consecutive cut points under the innermost open annotation,
closing ends, then opening starts. -/
def sweep (content : List Char) (prev : Nat) :
    List Nat → List Ann → List OpenEntry → List OpenEntry
  | [], _, st => st
  | pt :: pts, pending, st =>
    let st₁ := if prev < pt then
        attachToHead (.text ((content.drop prev).take (pt - prev))) st
      else st
    let st₂ := closeAt pt st₁
    let st₃ := openAt pt pending st₂
    sweep content pt pts st₃.1 st₃.2

def absorb (acc : OpenEntry) (f : OpenEntry) : OpenEntry :=
  { f with kids := attachNode (closeNode acc acc.stop) f.kids }

def collapse (acc : OpenEntry) : List OpenEntry → OpenEntry
  | [] => acc
  | f :: rest => collapse (absorb acc f) rest

def finalize : List OpenEntry → HIRNode
  | [] => .text []
  | e :: rest => closeNode (collapse e rest) (collapse e rest).stop

/-- Sweep a canonically sorted annotation list (§4.3 steps 2–6): the cut
points are `0`, `len(content)` and every start/end; the root covers the
whole content. -/
def buildSorted (content : List Char) (sorted : List Ann) : HIRNode :=
  finalize (sweep content 0
    (dedupSorted (isort natLE
      (0 :: content.length :: (sorted.map Ann.start ++ sorted.map Ann.stop))))
    sorted
    [{ tpe := "root", attrs := [], start := 0, stop := content.length, kids := [] }])

/-- The HIR builder: a pure function of the Document. -/
def buildHIR (reg : Registry) (d : Doc) : HIRNode :=
  buildSorted d.content (isort (annLE reg) (d.anns.filter (isRendered reg)))

/-! Ordering facts for the canonical comparator, and uniqueness of
sorted permutations. -/

theorem keyLE_total (k₁ k₂ : Nat × Nat × Int × Int) :
    keyLE k₁ k₂ = true ∨ keyLE k₂ k₁ = true := by
  obtain ⟨a₁, b₁, c₁, d₁⟩ := k₁
  obtain ⟨a₂, b₂, c₂, d₂⟩ := k₂
  simp only [keyLE]
  split_ifs <;> simp only [decide_eq_true_eq] <;> omega

theorem keyLE_trans {k₁ k₂ k₃ : Nat × Nat × Int × Int}
    (h1 : keyLE k₁ k₂ = true) (h2 : keyLE k₂ k₃ = true) : keyLE k₁ k₃ = true := by
  obtain ⟨a₁, b₁, c₁, d₁⟩ := k₁
  obtain ⟨a₂, b₂, c₂, d₂⟩ := k₂
  obtain ⟨a₃, b₃, c₃, d₃⟩ := k₃
  simp only [keyLE] at h1 h2 ⊢
  split_ifs at h1 h2 ⊢ <;> simp only [decide_eq_true_eq] at h1 h2 ⊢ <;> omega

theorem keyLE_antisymm {k₁ k₂ : Nat × Nat × Int × Int}
    (h1 : keyLE k₁ k₂ = true) (h2 : keyLE k₂ k₁ = true) : k₁ = k₂ := by
  obtain ⟨a₁, b₁, c₁, d₁⟩ := k₁
  obtain ⟨a₂, b₂, c₂, d₂⟩ := k₂
  simp only [keyLE] at h1 h2
  simp only [Prod.mk.injEq]
  split_ifs at h1 h2 <;> simp only [decide_eq_true_eq] at h1 h2 <;> omega

theorem insertSorted_perm {α : Type} (le : α → α → Bool) (x : α) :
    ∀ l : List α, (insertSorted le x l).Perm (x :: l)
  | [] => List.Perm.refl _
  | y :: ys => by
    rw [insertSorted]
    split_ifs with h
    · exact List.Perm.refl _
    · exact ((insertSorted_perm le x ys).cons y).trans (List.Perm.swap x y ys)

theorem isort_perm {α : Type} (le : α → α → Bool) :
    ∀ l : List α, (isort le l).Perm l
  | [] => List.Perm.refl _
  | x :: xs => by
    rw [isort]
    exact (insertSorted_perm le x (isort le xs)).trans ((isort_perm le xs).cons x)

theorem insertSorted_pairwise {α : Type} {le : α → α → Bool}
    (htotal : ∀ a b, le a b = true ∨ le b a = true)
    (htrans : ∀ {a b c}, le a b = true → le b c = true → le a c = true)
    (x : α) : ∀ (l : List α), l.Pairwise (fun a b => le a b = true) →
      (insertSorted le x l).Pairwise (fun a b => le a b = true)
  | [], _ => by simp [insertSorted]
  | y :: ys, hp => by
    rw [insertSorted]
    obtain ⟨hy, hys⟩ := List.pairwise_cons.mp hp
    split_ifs with h
    · refine List.pairwise_cons.mpr ⟨?_, hp⟩
      intro b hb
      rcases List.mem_cons.mp hb with rfl | hb
      · exact h
      · exact htrans h (hy b hb)
    · refine List.pairwise_cons.mpr ⟨?_, insertSorted_pairwise htotal htrans x ys hys⟩
      intro b hb
      have hmem := (insertSorted_perm le x ys).mem_iff.mp hb
      rcases List.mem_cons.mp hmem with rfl | hb'
      · rcases htotal b y with h' | h'
        · exact absurd h' h
        · exact h'
      · exact hy b hb'

theorem isort_pairwise {α : Type} {le : α → α → Bool}
    (htotal : ∀ a b, le a b = true ∨ le b a = true)
    (htrans : ∀ {a b c}, le a b = true → le b c = true → le a c = true) :
    ∀ l : List α, (isort le l).Pairwise (fun a b => le a b = true)
  | [] => by simp [isort]
  | x :: xs => by
    rw [isort]
    exact insertSorted_pairwise htotal htrans x _ (isort_pairwise htotal htrans xs)

/-- Two sorted lists that are permutations of each other coincide,
provided the comparator is antisymmetric on the elements present. -/
theorem sorted_perm_unique {α : Type} (le : α → α → Bool) :
    ∀ (l₁ l₂ : List α), l₁.Perm l₂ →
      l₁.Pairwise (fun a b => le a b = true) →
      l₂.Pairwise (fun a b => le a b = true) →
      (∀ a ∈ l₁, ∀ b ∈ l₁, le a b = true → le b a = true → a = b) →
      l₁ = l₂
  | [], l₂, hp, _, _, _ => hp.nil_eq
  | x :: r, [], hp, _, _, _ => hp.eq_nil
  | x :: r, y :: s, hp, hp₁, hp₂, hanti => by
    have hxy : x = y := by
      rcases List.mem_cons.mp (hp.mem_iff.mpr (List.mem_cons_self y s)) with h | h
      · exact h.symm
      · rcases List.mem_cons.mp (hp.mem_iff.mp (List.mem_cons_self x r)) with h' | h'
        · exact h'
        · have h1 : le x y = true := (List.pairwise_cons.mp hp₁).1 y h
          have h2 : le y x = true := (List.pairwise_cons.mp hp₂).1 x h'
          exact hanti x (List.mem_cons_self x r) y (List.mem_cons_of_mem x h) h1 h2
    subst hxy
    have hrs : r.Perm s := hp.cons_inv
    rw [sorted_perm_unique le r s hrs (List.pairwise_cons.mp hp₁).2
      (List.pairwise_cons.mp hp₂).2
      (fun a ha b hb hab hba =>
        hanti a (List.mem_cons_of_mem x ha) b (List.mem_cons_of_mem x hb) hab hba)]

/-- C1 (amended): HIR construction is order-independent provided no two
distinct surviving annotations tie under the canonical sort key (start,
rank, end, priority); with such a tie the final tie-break is insertion
order, which permutations change. -/
theorem hir_order_independent (reg : Registry) (c : List Char) (l₁ l₂ : List Ann)
    (hperm : l₁.Perm l₂)
    (hnotie : ∀ a ∈ l₁.filter (isRendered reg), ∀ b ∈ l₁.filter (isRendered reg),
      annKey reg a = annKey reg b → a = b) :
    buildHIR reg ⟨c, l₁⟩ = buildHIR reg ⟨c, l₂⟩ := by
  have hf : (l₁.filter (isRendered reg)).Perm (l₂.filter (isRendered reg)) :=
    hperm.filter _
  have htot : ∀ a b : Ann, annLE reg a b = true ∨ annLE reg b a = true :=
    fun a b => keyLE_total _ _
  have htr : ∀ {a b c : Ann}, annLE reg a b = true → annLE reg b c = true →
      annLE reg a c = true :=
    fun h1 h2 => keyLE_trans h1 h2
  have hsorted : isort (annLE reg) (l₁.filter (isRendered reg)) =
      isort (annLE reg) (l₂.filter (isRendered reg)) := by
    apply sorted_perm_unique (annLE reg)
    · exact ((isort_perm _ _).trans hf).trans (isort_perm _ _).symm
    · exact isort_pairwise htot htr _
    · exact isort_pairwise htot htr _
    · intro a ha b hb hab hba
      have ha' := (isort_perm (annLE reg) _).mem_iff.mp ha
      have hb' := (isort_perm (annLE reg) _).mem_iff.mp hb
      exact hnotie a ha' b hb' (keyLE_antisymm hab hba)
  exact congrArg (buildSorted c) hsorted

/-- Witness for C1's amended theorem: two distinct annotations with
distinct sort keys may be permuted without changing the tree. -/
theorem hir_order_independent_witness :
    buildHIR defaultReg ⟨['a', 'b'], [Ann.mk "p" 0 2 [], Ann.mk "i" 0 1 []]⟩ =
      buildHIR defaultReg ⟨['a', 'b'], [Ann.mk "i" 0 1 [], Ann.mk "p" 0 2 []]⟩ :=
  hir_order_independent defaultReg ['a', 'b'] _ _
    (List.Perm.swap (Ann.mk "i" 0 1 []) (Ann.mk "p" 0 2 []) [])
    (by decide)

def nodeAttrsOf : HIRNode → List (String × AttrVal)
  | .text _ => []
  | .element _ a _ _ _ => a

def firstChildAttrs : HIRNode → List (String × AttrVal)
  | .element _ _ _ _ (child :: _) => nodeAttrsOf child
  | _ => []

def tieDoc1 : Doc :=
  ⟨['a', 'b'], [Ann.mk "b" 0 2 [("k", .str "1")], Ann.mk "b" 0 2 [("k", .str "2")]]⟩

def tieDoc2 : Doc :=
  ⟨['a', 'b'], [Ann.mk "b" 0 2 [("k", .str "2")], Ann.mk "b" 0 2 [("k", .str "1")]]⟩

/-- C1 counterexample: two annotations of the same type and range but
different attributes tie under the canonical comparator, so the final
tie-break is insertion order: permuting the input array nests them the
other way round and the trees differ structurally. -/
theorem hir_order_counterexample :
    tieDoc1.anns.Perm tieDoc2.anns ∧
      buildHIR defaultReg tieDoc1 ≠ buildHIR defaultReg tieDoc2 := by
  refine ⟨List.Perm.swap _ _ _, fun h => ?_⟩
  exact absurd (congrArg firstChildAttrs h) (by decide)

mutual
/-- Whether some element node of the tree covers exactly `[s, e)`. -/
def hasSpan (s e : Nat) : HIRNode → Bool
  | .text _ => false
  | .element _ _ s' e' cs =>
    (decide (s' = s) && decide (e' = e)) || hasSpanList s e cs
termination_by structural n => n
def hasSpanList (s e : Nat) : List HIRNode → Bool
  | [] => false
  | n :: rest => hasSpan s e n || hasSpanList s e rest
termination_by structural l => l
end

/-- C2 (overlap splitting): for any content of length 15 and exactly the
two annotations `X [0, 10)` and `Y [5, 15)`, the HIR tree nests a
`Y [5, 10)` fragment inside `X` and places a separate `Y [10, 15)`
fragment outside `X` at the root, both fragments carrying `Y`'s full
attributes and type, and no node of the tree spans the full `[5, 15)`
range across `X`'s boundary. -/
theorem hir_overlap_split (reg : Registry) (c : List Char) (hc : c.length = 15)
    (aX aY : List (String × AttrVal))
    (hX : (reg "X").rank ≠ RankBucket.parseToken)
    (hY : (reg "Y").rank ≠ RankBucket.parseToken) :
    buildHIR reg ⟨c, [Ann.mk "X" 0 10 aX, Ann.mk "Y" 5 15 aY]⟩ =
      HIRNode.element "root" [] 0 15
        [HIRNode.element "X" aX 0 10
           [HIRNode.text (c.take 5),
            HIRNode.element "Y" aY 5 10 [HIRNode.text ((c.drop 5).take 5)]],
         HIRNode.element "Y" aY 10 15 [HIRNode.text ((c.drop 10).take 5)]] ∧
    hasSpan 5 15 (buildHIR reg ⟨c, [Ann.mk "X" 0 10 aX, Ann.mk "Y" 5 15 aY]⟩) = false := by
  have htree : buildHIR reg ⟨c, [Ann.mk "X" 0 10 aX, Ann.mk "Y" 5 15 aY]⟩ =
      HIRNode.element "root" [] 0 15
        [HIRNode.element "X" aX 0 10
           [HIRNode.text (c.take 5),
            HIRNode.element "Y" aY 5 10 [HIRNode.text ((c.drop 5).take 5)]],
         HIRNode.element "Y" aY 10 15 [HIRNode.text ((c.drop 10).take 5)]] := by
    simp [buildHIR, buildSorted, isort, insertSorted, annLE, annKey, keyLE, natLE,
      dedupSorted, sweep, closeAt, closeDepth, closeTop, openAt, attachToHead,
      attachNode, closeNode, absorb, collapse, finalize, isRendered, rankIdx,
      Ann.start, Ann.stop, Ann.tpe, Ann.attrs, hc, hX, hY]
  refine ⟨htree, ?_⟩
  rw [htree]
  simp [hasSpan, hasSpanList]

/-- Witness for C2 at concrete content, attributes and registry. -/
theorem hir_overlap_split_witness :
    buildHIR defaultReg ⟨"0123456789abcde".data,
        [Ann.mk "X" 0 10 [], Ann.mk "Y" 5 15 [("href", AttrVal.str "u")]]⟩ =
      HIRNode.element "root" [] 0 15
        [HIRNode.element "X" [] 0 10
           [HIRNode.text ("0123456789abcde".data.take 5),
            HIRNode.element "Y" [("href", AttrVal.str "u")] 5 10
              [HIRNode.text (("0123456789abcde".data.drop 5).take 5)]],
         HIRNode.element "Y" [("href", AttrVal.str "u")] 10 15
           [HIRNode.text (("0123456789abcde".data.drop 10).take 5)]] :=
  (hir_overlap_split defaultReg "0123456789abcde".data (by decide)
    [] [("href", AttrVal.str "u")] (by decide) (by decide)).1

end AtJson.Core
